import Mathlib

/-!
Verification of the indexing and query-resolution engine of the
osf-api-mcp server (a TypeScript program that indexes a Swagger/OpenAPI
specification and answers endpoint, tag, schema and fulltext queries).

The development is a shallow embedding: JavaScript Map and Set values are
modelled as insertion-ordered association lists, the ASCII fragment of
the JavaScript string case conversions is modelled by an explicit
letter table, and floating-point scores are modelled over the rationals
with the logarithm kept as an explicit function parameter.
-/

set_option maxRecDepth 4096

/-! ## Insertion-ordered maps and sets (JavaScript Map and Set semantics) -/

/-- Lookup in an insertion-ordered association list, as JavaScript Map.get. -/
def mapGet {α : Type} : List (String × α) → String → Option α
  | [], _ => none
  | (k₁, v₁) :: rest, k => if k₁ = k then some v₁ else mapGet rest k

/-- Update in an insertion-ordered association list, as JavaScript Map.set:
an existing key keeps its position and takes the new value, a new key is
appended at the end. -/
def mapSet {α : Type} : List (String × α) → String → α → List (String × α)
  | [], k, v => [(k, v)]
  | (k₁, v₁) :: rest, k, v =>
    if k₁ = k then (k₁, v) :: rest else (k₁, v₁) :: mapSet rest k v

/-- Key list of an association list, as JavaScript Map.keys. -/
def mapKeys {α : Type} (m : List (String × α)) : List String :=
  m.map (fun e => e.1)

/-- Insertion into an insertion-ordered string set, as JavaScript Set.add:
a present element is kept in place, a new element is appended. -/
def setAdd (s : List String) (x : String) : List String :=
  if x ∈ s then s else s ++ [x]

/-! ## Characters and strings

The engine only distinguishes ASCII letters, digits and whitespace, so the
JavaScript case conversions are modelled on the ASCII letters by an explicit
table of upper and lower pairs. -/

/-- The ASCII letter pairs (upper, lower) used by toLowerCase and toUpperCase. -/
def letterPairs : List (Char × Char) :=
  [('A','a'), ('B','b'), ('C','c'), ('D','d'), ('E','e'), ('F','f'), ('G','g'),
   ('H','h'), ('I','i'), ('J','j'), ('K','k'), ('L','l'), ('M','m'), ('N','n'),
   ('O','o'), ('P','p'), ('Q','q'), ('R','r'), ('S','s'), ('T','t'), ('U','u'),
   ('V','v'), ('W','w'), ('X','x'), ('Y','y'), ('Z','z')]

/-- Character-level model of JavaScript toLowerCase (ASCII fragment). -/
def lowerChar (c : Char) : Char :=
  match letterPairs.find? (fun p => p.1 == c) with
  | some p => p.2
  | none => c

/-- Character-level model of JavaScript toUpperCase (ASCII fragment). -/
def upperChar (c : Char) : Char :=
  match letterPairs.find? (fun p => p.2 == c) with
  | some p => p.1
  | none => c

/-- Model of the JavaScript regular-expression whitespace class backslash-s. -/
def isJsWs (c : Char) : Bool :=
  c == ' ' || c == '\t' || c == '\n' || c == '\r' || c == '\x0b' || c == '\x0c' ||
  c == ' ' || c == ' ' || (' ' ≤ c && c ≤ ' ') ||
  c == ' ' || c == ' ' || c == ' ' || c == ' ' ||
  c == '　' || c == '﻿'

/-- String-level model of JavaScript toLowerCase (ASCII fragment). -/
def strLower (s : String) : String := String.mk (s.data.map lowerChar)

/-- String-level model of JavaScript toUpperCase (ASCII fragment). -/
def strUpper (s : String) : String := String.mk (s.data.map upperChar)

/-- Decides whether the second character list opens the first one. -/
def leadsIn : List Char → List Char → Bool
  | _, [] => true
  | [], _ :: _ => false
  | c :: cs, d :: ds => c == d && leadsIn cs ds

/-- Decides whether needle occurs inside hay, as JavaScript String.includes. -/
def charsContain (hay needle : List Char) : Bool :=
  match hay with
  | [] => needle.isEmpty
  | _ :: rest => leadsIn hay needle || charsContain rest needle

/-- Substring test, as JavaScript String.includes. -/
def strContains (hay needle : String) : Bool := charsContain hay.data needle.data

/-- Model of the JavaScript truthiness test applied to an optional string:
an absent value and the empty string are falsy. -/
def strTruthy : Option String → Bool
  | none => false
  | some s => !(s == "")

/-! ## The shared tokenizer

Model of the function tokenize of swagger-loader.ts and fulltext-search.ts:
lower-case, replace every character outside the class of lower-case ASCII
letters, digits and whitespace by a space, split on whitespace runs, keep
tokens longer than two characters. -/

/-- The replacement step of the tokenizer regular expression. -/
def replaceChar (c : Char) : Char :=
  if ('a' ≤ c && c ≤ 'z') || ('0' ≤ c && c ≤ '9') || isJsWs c then c else ' '

/-- Collects the maximal runs of non-whitespace characters, accumulator style. -/
def wordsAux : List Char → List Char → List (List Char)
  | [], acc => if acc.isEmpty then [] else [acc.reverse]
  | c :: rest, acc =>
    if isJsWs c then
      if acc.isEmpty then wordsAux rest [] else acc.reverse :: wordsAux rest []
    else wordsAux rest (c :: acc)

/-- The maximal whitespace-separated runs of a character list. -/
def wordsOf (cs : List Char) : List (List Char) := wordsAux cs []

/-- Model of the JavaScript split on the whitespace-run regular expression:
the pieces between the maximal whitespace runs, with an empty piece at an
end whose side of the string opens or closes with whitespace, and a single
empty piece on the empty string. -/
def jsSplitWs (cs : List Char) : List (List Char) :=
  match cs with
  | [] => [[]]
  | c :: rest =>
    (if isJsWs c then [([] : List Char)] else []) ++ wordsOf (c :: rest) ++
    (if isJsWs ((c :: rest).getLast (List.cons_ne_nil c rest)) then [([] : List Char)] else [])

/-- The tokenizer, translated from the source. -/
def tokenize (text : String) : List String :=
  ((jsSplitWs ((text.data.map lowerChar).map replaceChar)).filter
    (fun w => w.length > 2)).map String.mk

/-- Spec-side statement of the tokenizer contract, for the refinement claim:
lower-case, replace characters outside the class, split on runs of
whitespace (yielding only the maximal non-whitespace runs), discard tokens
of length at most two. -/
def tokenizeSpec (text : String) : List String :=
  ((wordsOf ((text.data.map lowerChar).map replaceChar)).filter
    (fun w => w.length > 2)).map String.mk


/-! ## Document model (translated from types.ts; descriptive fields that no
embedded function reads are elided) -/

/-- Recursive schema node: optional array-item schema, named property map,
optional title. -/
inductive Schema where
  | node (items : Option Schema) (properties : List (String × Schema)) (title : Option String)

def Schema.items : Schema → Option Schema
  | .node i _ _ => i

def Schema.properties : Schema → List (String × Schema)
  | .node _ p _ => p

def Schema.title : Schema → Option String
  | .node _ _ t => t

structure Parameter where
  name : String
  description : Option String
deriving DecidableEq

structure Response where
  description : String
  schema : Option Schema

structure Operation where
  summary : Option String := none
  description : Option String := none
  operationId : Option String := none
  tags : Option (List String) := none
  parameters : Option (List Parameter) := none
  responses : Option (List (String × Response)) := none
  xResponseSchema : Option String := none

structure PathItem where
  get : Option Operation := none
  post : Option Operation := none
  put : Option Operation := none
  patch : Option Operation := none
  delete : Option Operation := none
  head : Option Operation := none
  options : Option Operation := none

/-- The fixed set of seven HTTP methods iterated by the builder. -/
inductive HttpMethod where
  | get | post | put | patch | delete | head | options
deriving DecidableEq

def HttpMethod.all : List HttpMethod :=
  [.get, .post, .put, .patch, .delete, .head, .options]

def HttpMethod.upper : HttpMethod → String
  | .get => "GET"
  | .post => "POST"
  | .put => "PUT"
  | .patch => "PATCH"
  | .delete => "DELETE"
  | .head => "HEAD"
  | .options => "OPTIONS"

def PathItem.op (p : PathItem) : HttpMethod → Option Operation
  | .get => p.get
  | .post => p.post
  | .put => p.put
  | .patch => p.patch
  | .delete => p.delete
  | .head => p.head
  | .options => p.options

structure Tag where
  name : String
  description : Option String
deriving DecidableEq

structure SwaggerSpec where
  tags : List Tag := []
  paths : List (String × PathItem) := []

/-! ## Index structures (translated from types.ts) -/

structure EndpointResult where
  path : String
  method : String
  summary : Option String
  description : Option String
  operationId : Option String
  tags : Option (List String)
  parameters : Option (List Parameter)
deriving DecidableEq

structure EndpointIndex where
  paths : List (String × List (String × Operation)) := []
  tags : List (String × List EndpointResult) := []
  operationIds : List (String × (String × String)) := []

structure SchemaResult where
  schemaName : Option String
  path : Option String
  method : Option String
  schema : Schema

structure SchemaIndex where
  byName : List (String × List SchemaResult) := []
  byProperty : List (String × List SchemaResult) := []

structure FulltextDoc where
  path : String
  method : String
  content : String
  summary : Option String
  description : Option String
deriving DecidableEq

structure FulltextIndex where
  words : List (String × List String) := []
  documents : List (String × FulltextDoc) := []

/-! ## Index builder (translated from swagger-loader.ts) -/

/-- The endpoint summary record pushed by the builder and the endpoint
query resolver. -/
def mkEndpointResult (path method : String) (op : Operation) : EndpointResult :=
  ⟨path, method, op.summary, op.description, op.operationId, op.tags, op.parameters⟩

def buildEndpointIndex (spec : SwaggerSpec) : EndpointIndex :=
  spec.paths.foldl (fun idx pe =>
    let st := HttpMethod.all.foldl
      (fun (st : List (String × Operation) × List (String × List EndpointResult) ×
            List (String × (String × String))) method =>
        match pe.2.op method with
        | none => st
        | some operation =>
          let methodMap := mapSet st.1 method.upper operation
          let tags :=
            match operation.tags with
            | none => st.2.1
            | some ts => ts.foldl (fun tg tag =>
                mapSet tg tag ((mapGet tg tag).getD [] ++
                  [mkEndpointResult pe.1 method.upper operation])) st.2.1
          let operationIds :=
            match operation.operationId with
            | none => st.2.2
            | some oid => mapSet st.2.2 oid (pe.1, method.upper)
          (methodMap, tags, operationIds))
      ([], idx.tags, idx.operationIds)
    { paths := if st.1.isEmpty then idx.paths else mapSet idx.paths pe.1 st.1,
      tags := st.2.1,
      operationIds := st.2.2 }) {}

/-- Model of the JavaScript expression x-response-schema or-else title:
an absent or empty left side falls through to the right side. -/
def jsOrName (a b : Option String) : Option String :=
  match a with
  | some s => if s == "" then b else some s
  | none => b

/-- Property and array-item indexing of one response schema, translated from
indexSchemaProperties: the direct property names are registered, and the
indexing recurses into the array-item schema. -/
def indexSchemaProperties : Schema → SchemaResult →
    List (String × List SchemaResult) → List (String × List SchemaResult)
  | .node none properties _, schemaResult, byProperty =>
    properties.foldl (fun bp pe =>
      mapSet bp pe.1 ((mapGet bp pe.1).getD [] ++ [schemaResult])) byProperty
  | .node (some items) properties _, schemaResult, byProperty =>
    indexSchemaProperties items schemaResult
      (properties.foldl (fun bp pe =>
        mapSet bp pe.1 ((mapGet bp pe.1).getD [] ++ [schemaResult])) byProperty)

def buildSchemaIndex (spec : SwaggerSpec) : SchemaIndex :=
  spec.paths.foldl (fun idx pe =>
    HttpMethod.all.foldl (fun idx method =>
      match pe.2.op method with
      | none => idx
      | some operation =>
        match operation.responses with
        | none => idx
        | some responses =>
          responses.foldl (fun idx re =>
            match re.2.schema with
            | none => idx
            | some schema =>
              let schemaName := jsOrName operation.xResponseSchema schema.title
              let schemaResult : SchemaResult :=
                ⟨schemaName, some pe.1, some method.upper, schema⟩
              let byName :=
                if strTruthy schemaName then
                  mapSet idx.byName (schemaName.getD "")
                    ((mapGet idx.byName (schemaName.getD "")).getD [] ++ [schemaResult])
                else idx.byName
              ⟨byName, indexSchemaProperties schema schemaResult idx.byProperty⟩) idx) idx) {}

/-- JavaScript truthiness guard around pushing an optional string onto the
content part list. -/
def pushTruthy : Option String → List String
  | none => []
  | some s => if s == "" then [] else [s]

/-- Registers the tokens of one document into the inverted word index. -/
def indexTokens (docId : String) (ws : List (String × List String))
    (tokens : List String) : List (String × List String) :=
  tokens.foldl (fun ws token =>
    mapSet ws token (setAdd ((mapGet ws token).getD []) docId)) ws

/-- Registers one operation into the fulltext index: store its document,
then index the tokens of its rendered content. -/
def addFulltextDoc (idx : FulltextIndex) (path : String) (method : HttpMethod)
    (operation : Operation) : FulltextIndex :=
  let docId := method.upper ++ ":" ++ path
  let contentParts :=
    pushTruthy operation.summary ++ pushTruthy operation.description ++
    (match operation.parameters with
     | none => []
     | some ps => ps.foldl
         (fun acc param => acc ++ pushTruthy param.description ++ [param.name]) [])
  let content := String.intercalate " " contentParts
  let documents := mapSet idx.documents docId
    ⟨path, method.upper, content, operation.summary, operation.description⟩
  let words := indexTokens docId idx.words (tokenize content)
  ⟨words, documents⟩

def buildFulltextIndex (spec : SwaggerSpec) : FulltextIndex :=
  spec.paths.foldl (fun idx pe =>
    HttpMethod.all.foldl (fun idx method =>
      match pe.2.op method with
      | none => idx
      | some operation => addFulltextDoc idx pe.1 method operation) idx) {}

/-! ## Loader state (translated from the SwaggerLoader class): the parse of
the raw bytes is the external collaborator of the engine and is modelled as
an optional document model. -/

structure LoaderState where
  spec : Option SwaggerSpec := none
  endpointIndex : Option EndpointIndex := none
  schemaIndex : Option SchemaIndex := none
  fulltextIndex : Option FulltextIndex := none

/-- The state before any load call. -/
def newLoader : LoaderState := {}

/-- One load attempt: a failed parse leaves the state untouched, a
successful parse stores the specification and builds the three indexes. -/
def loadStep (st : LoaderState) (parsed : Option SwaggerSpec) : LoaderState :=
  match parsed with
  | none => st
  | some sp =>
    { spec := some sp,
      endpointIndex := some (buildEndpointIndex sp),
      schemaIndex := some (buildSchemaIndex sp),
      fulltextIndex := some (buildFulltextIndex sp) }

def getSpec (st : LoaderState) : Except String SwaggerSpec :=
  match st.spec with
  | none => .error "Swagger spec not loaded. Call load() first."
  | some s => .ok s

def getEndpointIndex (st : LoaderState) : Except String EndpointIndex :=
  match st.endpointIndex with
  | none => .error "Indexes not built. Call load() first."
  | some i => .ok i

def getSchemaIndex (st : LoaderState) : Except String SchemaIndex :=
  match st.schemaIndex with
  | none => .error "Indexes not built. Call load() first."
  | some i => .ok i

def getFulltextIndex (st : LoaderState) : Except String FulltextIndex :=
  match st.fulltextIndex with
  | none => .error "Indexes not built. Call load() first."
  | some i => .ok i

/-- The loader states the program can actually be in: the fresh state and
every state reached by load attempts. -/
inductive ReachableLoader : LoaderState → Prop where
  | new : ReachableLoader newLoader
  | step (st : LoaderState) (parsed : Option SwaggerSpec) :
      ReachableLoader st → ReachableLoader (loadStep st parsed)


/-! ## Sorting and comparison helpers

JavaScript Array.prototype.sort is a stable comparison sort; it is modelled
by a stable insertion sort (each element is placed after every element the
comparator does not order strictly after it), and the default-locale string
comparison of localeCompare is modelled as lexicographic comparison of the
character sequences. -/

/-- Inserts x after every leading element y with le y x. -/
def insertSorted {α : Type} (le : α → α → Bool) (x : α) : List α → List α
  | [] => [x]
  | y :: ys => if le y x then y :: insertSorted le x ys else x :: y :: ys

/-- Stable comparison sort: the model of JavaScript Array.prototype.sort. -/
def stableSort {α : Type} (le : α → α → Bool) (l : List α) : List α :=
  l.foldl (fun acc x => insertSorted le x acc) []

/-- Strict lexicographic comparison of character lists. -/
def charsLt : List Char → List Char → Bool
  | [], [] => false
  | [], _ :: _ => true
  | _ :: _, [] => false
  | c :: cs, d :: ds => c < d || (c == d && charsLt cs ds)

/-- Lexicographic comparison of character lists, reflexive form. -/
def charsLe : List Char → List Char → Bool
  | [], _ => true
  | _ :: _, [] => false
  | c :: cs, d :: ds => c < d || (c == d && charsLe cs ds)

/-- Lexicographic strict string comparison (model of a negative
localeCompare outcome). -/
def strLt (a b : String) : Bool := charsLt a.data b.data

/-- Lexicographic string comparison allowing equality (model of a
non-positive localeCompare outcome). -/
def strLe (a b : String) : Bool := charsLe a.data b.data

/-! ## Query resolvers -/

/-- Parameters of the endpoint query (endpoint-search.ts). -/
structure EndpointSearchParams where
  path : Option String := none
  method : Option String := none
  operationId : Option String := none
  tag : Option String := none
  limit : Option Nat := none

/-- The endpoint query resolver, translated from searchEndpoints. -/
def searchEndpoints (index : EndpointIndex) (params : EndpointSearchParams) :
    List EndpointResult :=
  let limit := params.limit.getD 10
  let results :=
    if strTruthy params.operationId then
      let normalizedOpId := strLower (params.operationId.getD "")
      index.operationIds.foldl (fun acc e =>
        if strContains (strLower e.1) normalizedOpId then
          match (mapGet index.paths e.2.1).bind (fun mm => mapGet mm e.2.2) with
          | some operation => acc ++ [mkEndpointResult e.2.1 e.2.2 operation]
          | none => acc
        else acc) []
    else
      index.paths.foldl (fun acc pe =>
        if strTruthy params.path &&
            !(strContains (strLower pe.1) (strLower (params.path.getD ""))) then acc
        else
          pe.2.foldl (fun acc me =>
            if strTruthy params.method &&
                !(strUpper me.1 == strUpper (params.method.getD "")) then acc
            else if strTruthy params.tag &&
                !(match me.2.tags with
                  | none => false
                  | some ts => ts.any (fun t =>
                      strContains (strLower t) (strLower (params.tag.getD "")))) then acc
            else acc ++ [mkEndpointResult pe.1 me.1 me.2]) acc) []
  results.take limit

/-- Result bundle of the tag query (tag-search.ts). -/
structure TagSearchResult where
  tagName : String
  description : Option String
  endpoints : List EndpointResult
deriving DecidableEq

/-- The tag query resolver, translated from searchByTag. -/
def searchByTag (spec : SwaggerSpec) (index : EndpointIndex)
    (tag : String) (includeDescription : Bool := false) : List TagSearchResult :=
  let normalizedTag := strLower tag
  index.tags.foldl (fun acc e =>
    if strContains (strLower e.1) normalizedTag then
      let description :=
        if includeDescription then
          (spec.tags.find? (fun t => t.name == e.1)).bind (fun t => t.description)
        else none
      acc ++ [⟨e.1, description, e.2⟩]
    else acc) []

/-- Parameters of the schema query (schema-search.ts). -/
structure SchemaSearchParams where
  schemaName : Option String := none
  property : Option String := none
  path : Option String := none
  method : Option String := none

/-- Rendering of an optional string inside a JavaScript template literal:
an absent value prints as the text undefined. -/
def renderOpt : Option String → String
  | none => "undefined"
  | some s => s

/-- The deduplication key of the schema query: the template literal
path colon method colon schemaName. -/
def schemaKey (r : SchemaResult) : String :=
  renderOpt r.path ++ ":" ++ renderOpt r.method ++ ":" ++ renderOpt r.schemaName

/-- Deduplication of schema query results: the first result with each key
survives, in first-occurrence order. -/
def dedupByKey (results : List SchemaResult) : List SchemaResult :=
  (results.foldl (fun (acc : List (String × SchemaResult)) r =>
    if (mapGet acc (schemaKey r)).isSome then acc
    else mapSet acc (schemaKey r) r) []).map (fun e => e.2)

/-- The schema query resolver, translated from searchSchemas. -/
def searchSchemas (endpointIndex : EndpointIndex) (schemaIndex : SchemaIndex)
    (params : SchemaSearchParams) : List SchemaResult :=
  let results :=
    if strTruthy params.schemaName then
      let normalizedName := strLower (params.schemaName.getD "")
      schemaIndex.byName.foldl (fun acc e =>
        if strContains (strLower e.1) normalizedName then acc ++ e.2 else acc) []
    else if strTruthy params.property then
      let normalizedProp := strLower (params.property.getD "")
      schemaIndex.byProperty.foldl (fun acc e =>
        if strContains (strLower e.1) normalizedProp then acc ++ e.2 else acc) []
    else if strTruthy params.path && strTruthy params.method then
      match (mapGet endpointIndex.paths (params.path.getD "")).bind
          (fun mm => mapGet mm (strUpper (params.method.getD ""))) with
      | none => []
      | some operation =>
        match operation.responses with
        | none => []
        | some responses =>
          responses.foldl (fun acc re =>
            match re.2.schema with
            | none => acc
            | some schema =>
              acc ++ [⟨jsOrName operation.xResponseSchema schema.title,
                       params.path, some (strUpper (params.method.getD "")), schema⟩]) []
    else []
  dedupByKey results

/-- Result record of the fulltext query (types.ts), with the score over the
rationals. -/
structure FulltextSearchResult where
  path : String
  method : String
  summary : Option String
  description : Option String
  score : ℚ
  matchedFields : List String
deriving DecidableEq

/-- Placeholder document behind the non-null assertion of the source; a
well-built index never reaches it. -/
def defaultDoc : FulltextDoc := ⟨"", "", "", none, none⟩

/-- Per-document scoring step of the fulltext query: ensure a score entry
exists, add the tf-idf contribution of the current token, and record which
of summary and description contain the token. -/
def scoreDoc (log : ℚ → ℚ) (index : FulltextIndex) (tokenCount : Nat)
    (docIds : List String) (token : String)
    (scores : List (String × (ℚ × List String))) (docId : String) :
    List (String × (ℚ × List String)) :=
  let scores :=
    if (mapGet scores docId).isSome then scores
    else mapSet scores docId (0, [])
  let scoreData := (mapGet scores docId).getD (0, [])
  let tf : ℚ := 1 / (tokenCount : ℚ)
  let idf : ℚ := log ((index.documents.length : ℚ) / (docIds.length : ℚ))
  let doc := (mapGet index.documents docId).getD defaultDoc
  let fields := scoreData.2
  let fields :=
    match doc.summary with
    | some s => if strContains (strLower s) token then setAdd fields "summary" else fields
    | none => fields
  let fields :=
    match doc.description with
    | some d => if strContains (strLower d) token then setAdd fields "description" else fields
    | none => fields
  mapSet scores docId (scoreData.1 + tf * idf, fields)

/-- Per-token scoring step of the fulltext query: a token absent from the
word index contributes nothing and is never used for a document frequency. -/
def scoreToken (log : ℚ → ℚ) (index : FulltextIndex) (tokenCount : Nat)
    (scores : List (String × (ℚ × List String))) (token : String) :
    List (String × (ℚ × List String)) :=
  match mapGet index.words token with
  | none => scores
  | some docIds => docIds.foldl (scoreDoc log index tokenCount docIds token) scores

/-- The fulltext query resolver, translated from fulltextSearch, with the
natural logarithm of the score formula kept as the function parameter log. -/
def fulltextSearch (log : ℚ → ℚ) (index : FulltextIndex) (query : String)
    (limit : Option Nat) : List FulltextSearchResult :=
  let lim := limit.getD 10
  let queryTokens := tokenize query
  if queryTokens.length == 0 then []
  else
    let scores := queryTokens.foldl (scoreToken log index queryTokens.length) []
    let results := scores.map (fun e =>
      let doc := (mapGet index.documents e.1).getD defaultDoc
      FulltextSearchResult.mk doc.path doc.method doc.summary doc.description e.2.1 e.2.2)
    (stableSort (fun a b => decide (b.score ≤ a.score)) results).take lim

/-- One row of the endpoint listing (server.test.ts). -/
structure EndpointListItem where
  path : String
  method : String
  summary : Option String
  operationId : Option String
  tags : Option (List String)
deriving DecidableEq

/-- The comparator of the endpoint listing: by path, then by method. -/
def listItemLe (a b : EndpointListItem) : Bool :=
  strLt a.path b.path || (a.path == b.path && strLe a.method b.method)

/-- The endpoint listing, translated from listEndpoints. -/
def listEndpoints (index : EndpointIndex) (limit : Option Nat) (offset : Option Nat) :
    List EndpointListItem :=
  let lim := limit.getD 50
  let off := offset.getD 0
  let results := index.paths.foldl (fun acc pe =>
    pe.2.foldl (fun acc me =>
      acc ++ [⟨pe.1, strUpper me.1, me.2.summary, me.2.operationId, me.2.tags⟩]) acc) []
  let sorted := stableSort listItemLe results
  (sorted.drop off).take lim


/-! ## Concrete example specifications, used to evaluate the engine on
closed inputs -/

/-- An always-empty leaf schema. -/
def leafSchema : Schema := .node none [] none

def filesOp : Operation :=
  { summary := some "List all files",
    description := some "Returns a list of all files in the system",
    operationId := some "files_list",
    tags := some ["Files"],
    responses := some
      [("200", ⟨"OK", some (.node none [("id", leafSchema), ("name", leafSchema)] (some "FileList"))⟩)] }

def nodesOp : Operation :=
  { summary := some "List all nodes",
    description := some "Returns the nodes",
    operationId := some "nodes_list",
    tags := some ["Nodes"],
    responses := some [("200", ⟨"OK", some (.node none [("id", leafSchema)] (some "NodeList"))⟩)] }

/-- A small specification in the shape of the minimal test fixture: two
listing endpoints with summaries, descriptions, operation ids and tags. -/
def demoSpec : SwaggerSpec :=
  { tags := [⟨"Files", some "File operations"⟩, ⟨"Nodes", none⟩],
    paths :=
      [("/files/", { get := some filesOp }),
       ("/nodes/", { get := some nodesOp })] }

/-- A two-endpoint specification whose paths appear in reverse
lexicographic order. -/
def abSpec : SwaggerSpec :=
  { paths :=
      [("/b/", { get := some { summary := some "b endpoint" } }),
       ("/a/", { get := some { summary := some "a endpoint" } })] }

/-- A response schema whose only property sits below two levels of
array-item nesting. -/
def deepSchema : Schema :=
  .node (some (.node (some (.node none [("deepProp", leafSchema)] none)) [] none)) [] (some "Deep")

def deepOp : Operation :=
  { responses := some [("200", ⟨"OK", some deepSchema⟩)] }

/-- A specification whose single response schema nests a property two
item-levels deep. -/
def deepSpec : SwaggerSpec := { paths := [("/deep/", { get := some deepOp })] }

def undefOp : Operation :=
  { responses := some
      [("200", ⟨"OK", some (.node none [("pp", leafSchema)] (some "undefined"))⟩),
       ("404", ⟨"NF", some (.node none [("pp", leafSchema)] none)⟩)] }

/-- A specification with two response schemas at one endpoint: one titled
with the literal text undefined, one untitled. -/
def undefSpec : SwaggerSpec := { paths := [("/c/", { get := some undefOp })] }

def caseOp : Operation :=
  { responses := some [("200", ⟨"OK", some (.node none [] (some "X"))⟩)] }

/-- A specification whose single path contains an upper-case letter. -/
def caseSpec : SwaggerSpec := { paths := [("/Files/", { get := some caseOp })] }

/-- A specification in which the token storage occurs only as a parameter
name of one endpoint, next to a second endpoint without it. -/
def storageSpec : SwaggerSpec :=
  { paths :=
      [("/storage-op/", { get := some { parameters := some [⟨"storage", none⟩] } }),
       ("/other/", { get := some { summary := some "hello world item" } })] }

/-! ## Equality modulo ASCII letter case, used to state the
case-insensitivity claims -/

/-- Two characters differ at most by ASCII letter case. -/
def charEqModCase (c₁ c₂ : Char) : Prop :=
  c₁ = c₂ ∨ (c₁, c₂) ∈ letterPairs ∨ (c₂, c₁) ∈ letterPairs

/-- Two strings differ at most by ASCII letter case. -/
def strEqModCase (s₁ s₂ : String) : Prop :=
  List.Forall₂ charEqModCase s₁.data s₂.data

/-- Two optional strings differ at most by ASCII letter case. -/
def optEqModCase : Option String → Option String → Prop
  | none, none => True
  | some a, some b => strEqModCase a b
  | _, _ => False

/-- Pointwise decidability of Forall₂ on lists. -/
def forall₂Dec {α β : Type} (R : α → β → Prop) [∀ a b, Decidable (R a b)] :
    ∀ (l₁ : List α) (l₂ : List β), Decidable (List.Forall₂ R l₁ l₂)
  | [], [] => isTrue List.Forall₂.nil
  | [], _ :: _ => isFalse (fun h => by cases h)
  | _ :: _, [] => isFalse (fun h => by cases h)
  | a :: as, b :: bs =>
    match (inferInstance : Decidable (R a b)), forall₂Dec R as bs with
    | isTrue h₁, isTrue h₂ => isTrue (List.Forall₂.cons h₁ h₂)
    | isFalse h₁, _ => isFalse (fun h => by cases h; exact h₁ (by assumption))
    | isTrue _, isFalse h₂ => isFalse (fun h => by cases h; exact h₂ (by assumption))

instance (c₁ c₂ : Char) : Decidable (charEqModCase c₁ c₂) :=
  inferInstanceAs (Decidable (c₁ = c₂ ∨ (c₁, c₂) ∈ letterPairs ∨ (c₂, c₁) ∈ letterPairs))

instance (s₁ s₂ : String) : Decidable (strEqModCase s₁ s₂) :=
  forall₂Dec charEqModCase s₁.data s₂.data

instance : ∀ (o₁ o₂ : Option String), Decidable (optEqModCase o₁ o₂)
  | none, none => isTrue trivial
  | some a, some b => inferInstanceAs (Decidable (strEqModCase a b))
  | none, some _ => isFalse (fun h => h)
  | some _, none => isFalse (fun h => h)

/-! ## Theorems: basic map and set lemmas -/

theorem mapGet_mapSet_self {α : Type} (m : List (String × α)) (k : String) (v : α) :
    mapGet (mapSet m k v) k = some v := by
  induction m with
  | nil => simp [mapGet, mapSet]
  | cons e rest ih =>
    obtain ⟨k₁, v₁⟩ := e
    by_cases h : k₁ = k
    · subst h
      simp [mapGet, mapSet]
    · simpa [mapGet, mapSet, h] using ih

theorem mapGet_mapSet_other {α : Type} (m : List (String × α)) (k k₂ : String) (v : α)
    (hne : k₂ ≠ k) : mapGet (mapSet m k v) k₂ = mapGet m k₂ := by
  induction m with
  | nil => simp [mapGet, mapSet, Ne.symm hne]
  | cons e rest ih =>
    obtain ⟨k₁, v₁⟩ := e
    by_cases h : k₁ = k
    · subst h
      by_cases h₂ : k₁ = k₂
      · exact absurd h₂.symm hne
      · simp [mapGet, mapSet, h₂]
    · by_cases h₂ : k₁ = k₂
      · subst h₂
        simp [mapGet, mapSet, h]
      · simpa [mapGet, mapSet, h, h₂] using ih

theorem mem_mapSet {α : Type} (m : List (String × α)) (k : String) (v : α)
    (e : String × α) (he : e ∈ mapSet m k v) : e ∈ m ∨ e = (k, v) := by
  induction m with
  | nil => simpa [mapSet] using he
  | cons e₁ rest ih =>
    obtain ⟨k₁, v₁⟩ := e₁
    by_cases h : k₁ = k
    · subst h
      rw [mapSet, if_pos rfl, List.mem_cons] at he
      rcases he with h₁ | h₁
      · exact Or.inr h₁
      · exact Or.inl (List.mem_cons_of_mem _ h₁)
    · rw [mapSet, if_neg h, List.mem_cons] at he
      rcases he with h₁ | h₁
      · exact Or.inl (by simp [h₁])
      · rcases ih h₁ with h₂ | h₂
        · exact Or.inl (List.mem_cons_of_mem _ h₂)
        · exact Or.inr h₂

theorem mapKeys_mapSet {α : Type} (m : List (String × α)) (k : String) (v : α) :
    mapKeys (mapSet m k v) = if k ∈ mapKeys m then mapKeys m else mapKeys m ++ [k] := by
  induction m with
  | nil => simp [mapKeys, mapSet]
  | cons e rest ih =>
    obtain ⟨k₁, v₁⟩ := e
    by_cases h : k₁ = k
    · subst h
      simp [mapKeys, mapSet]
    · have hne : ¬k = k₁ := fun hh => h hh.symm
      by_cases h₂ : k ∈ mapKeys rest
      · simp only [mapKeys, mapSet, if_neg h, List.map_cons] at ih ⊢
        simp only [mapKeys] at ih h₂
        simp [ih, h₂, hne]
      · simp only [mapKeys, mapSet, if_neg h, List.map_cons] at ih ⊢
        simp only [mapKeys] at ih h₂
        simp [ih, h₂, hne]

theorem mapKeys_subset_mapSet {α : Type} (m : List (String × α)) (k : String) (v : α) :
    mapKeys m ⊆ mapKeys (mapSet m k v) := by
  rw [mapKeys_mapSet]
  split
  · exact fun a ha => ha
  · exact fun a ha => List.mem_append_left _ ha

theorem nodup_mapKeys_mapSet {α : Type} (m : List (String × α)) (k : String) (v : α)
    (h : (mapKeys m).Nodup) : (mapKeys (mapSet m k v)).Nodup := by
  rw [mapKeys_mapSet]
  split
  · exact h
  · next hk => simpa [List.nodup_append] using ⟨h, hk⟩

theorem setAdd_ne_nil (s : List String) (x : String) : setAdd s x ≠ [] := by
  unfold setAdd
  split
  · next h => exact List.ne_nil_of_mem h
  · simp

theorem setAdd_nodup (s : List String) (x : String) (h : s.Nodup) : (setAdd s x).Nodup := by
  unfold setAdd
  split
  · exact h
  · next hx => simpa [List.nodup_append] using ⟨h, hx⟩

theorem mem_setAdd (s : List String) (x y : String) (hy : y ∈ setAdd s x) :
    y ∈ s ∨ y = x := by
  unfold setAdd at hy
  split at hy
  · exact Or.inl hy
  · simpa using hy

theorem mapGet_mem {α : Type} (m : List (String × α)) (k : String) (v : α)
    (h : mapGet m k = some v) : (k, v) ∈ m := by
  induction m with
  | nil => simp [mapGet] at h
  | cons e rest ih =>
    obtain ⟨k₁, v₁⟩ := e
    by_cases hk : k₁ = k
    · subst hk
      rw [mapGet, if_pos rfl, Option.some.injEq] at h
      simp [h]
    · rw [mapGet, if_neg hk] at h
      exact List.mem_cons_of_mem _ (ih h)

/-! ## Theorems: tokenizer -/

theorem filter_jsSplitWs (p : List Char → Bool) (hp : p [] = false) (cs : List Char) :
    (jsSplitWs cs).filter p = (wordsOf cs).filter p := by
  cases cs with
  | nil => simp [jsSplitWs, wordsOf, wordsAux, hp]
  | cons c rest =>
    rw [jsSplitWs, List.filter_append, List.filter_append]
    split <;> split <;> simp [hp]

theorem letterPairs_fst_not_ws : ∀ p ∈ letterPairs, isJsWs p.1 = false := by decide

theorem lowerChar_ws (c : Char) (h : isJsWs c = true) : lowerChar c = c := by
  unfold lowerChar
  cases hf : letterPairs.find? (fun p => p.1 == c) with
  | none => rfl
  | some p =>
    have hmem := List.mem_of_find?_eq_some hf
    have hpred := List.find?_some hf
    have hc : p.1 = c := by simpa using hpred
    have := letterPairs_fst_not_ws p hmem
    rw [hc] at this
    rw [this] at h
    cases h

theorem replaceChar_ws (c : Char) (h : isJsWs c = true) : replaceChar c = c := by
  simp [replaceChar, h]

theorem wordsAux_ws (cs : List Char) (h : ∀ c ∈ cs, isJsWs c = true) :
    wordsAux cs [] = [] := by
  induction cs with
  | nil => rfl
  | cons c rest ih =>
    have hc := h c (List.mem_cons_self c rest)
    rw [wordsAux, if_pos hc]
    simpa using ih (fun d hd => h d (List.mem_cons_of_mem c hd))

/-- Claim C5: the tokenizer lower-cases, replaces every character outside
the lower-case-letter, digit and whitespace classes with a space, splits on
whitespace runs, and keeps only tokens longer than two characters; it sends
file-upload to [file, upload], id to the empty sequence, api to [api], and
every empty or whitespace-only string to the empty sequence, and it is a
total function by construction. -/
theorem tokenize_matches_contract :
    (∀ s, tokenize s = tokenizeSpec s) ∧
    (∀ s, (∀ c ∈ s.data, isJsWs c = true) → tokenize s = []) ∧
    tokenize "file-upload" = ["file", "upload"] ∧
    tokenize "id" = [] ∧ tokenize "api" = ["api"] ∧ tokenize "" = [] := by
  have hmain : ∀ s, tokenize s = tokenizeSpec s := by
    intro s
    unfold tokenize tokenizeSpec
    rw [filter_jsSplitWs _ (by decide)]
  refine ⟨hmain, ?_, by decide, by decide, by decide, by decide⟩
  intro s h
  rw [hmain]
  unfold tokenizeSpec
  have hfix : (s.data.map lowerChar).map replaceChar = s.data := by
    rw [List.map_map]
    have : ∀ c ∈ s.data, (replaceChar ∘ lowerChar) c = id c := by
      intro c hc
      have hw := h c hc
      simp [Function.comp, lowerChar_ws c hw, replaceChar_ws c hw]
    rw [List.map_congr_left this, List.map_id]
  rw [hfix]
  unfold wordsOf
  rw [wordsAux_ws s.data h]
  rfl

/-- Witness for C5: the whitespace-only hypothesis discharged on a
three-space string. -/
theorem tokenize_matches_contract_witness :
    tokenize "   " = [] :=
  tokenize_matches_contract.2.1 "   " (by decide)

/-! ## Theorems: fulltext query on empty tokenizations (claim C6) -/

/-- Claim C6: a fulltext query whose tokenization is empty returns the
empty result list (and, being a total function, never raises an error). -/
theorem fulltextSearch_empty_query (log : ℚ → ℚ) (index : FulltextIndex)
    (query : String) (limit : Option Nat) (h : tokenize query = []) :
    fulltextSearch log index query limit = [] := by
  unfold fulltextSearch
  rw [h]
  rfl

/-- Witness for C6: the empty string, a whitespace-only string and an
all-short-token string each yield the empty result on a built index. -/
theorem fulltextSearch_empty_query_witness :
    fulltextSearch id (buildFulltextIndex demoSpec) "" none = [] ∧
    fulltextSearch id (buildFulltextIndex demoSpec) "   " none = [] ∧
    fulltextSearch id (buildFulltextIndex demoSpec) "a is to" none = [] :=
  ⟨fulltextSearch_empty_query id _ "" none (by decide),
   fulltextSearch_empty_query id _ "   " none (by decide),
   fulltextSearch_empty_query id _ "a is to" none (by decide)⟩

/-! ## Theorems: operationId precedence in the endpoint query (claim C4) -/

/-- Claim C4: when a non-empty operationId is supplied, the endpoint query
result is independent of any path, method and tag filters supplied at the
same time; the resolver runs only the operationId scan over the
operationIds index. -/
theorem searchEndpoints_opid_ignores_filters (index : EndpointIndex)
    (p m t : Option String) (lim : Option Nat) (oid : String) (h : oid ≠ "") :
    searchEndpoints index ⟨p, m, some oid, t, lim⟩ =
    searchEndpoints index ⟨none, none, some oid, none, lim⟩ := by
  have htr : strTruthy (some oid) = true := by simp [strTruthy, h]
  unfold searchEndpoints
  simp only [htr, if_true]

/-- Witness for C4: a concrete operationId query with clashing path,
method and tag filters equals the plain operationId query. -/
theorem searchEndpoints_opid_ignores_filters_witness :
    ("files" : String) ≠ "" ∧
    searchEndpoints (buildEndpointIndex demoSpec)
      ⟨some "/nodes/", some "POST", some "files", some "zzz", none⟩ =
    searchEndpoints (buildEndpointIndex demoSpec) ⟨none, none, some "files", none, none⟩ :=
  ⟨by decide,
   searchEndpoints_opid_ignores_filters (buildEndpointIndex demoSpec)
     (some "/nodes/") (some "POST") (some "zzz") none "files" (by decide)⟩

/-! ## Theorems: schema property indexing (claim C1) -/

/-- Length of the array-item chain of a schema. -/
def itemDepth : Schema → Nat
  | .node none _ _ => 0
  | .node (some i) _ _ => itemDepth i + 1

/-- The k-fold iterate of the array-item step. -/
def itemsIter : Nat → Schema → Option Schema
  | 0, s => some s
  | _ + 1, .node none _ _ => none
  | n + 1, .node (some i) _ _ => itemsIter n i

/-- Spec-side one-level property collection for the refutation of C1 as
stated: the names in the property mapping of the response schema itself
and of its direct item schema, and nothing deeper. -/
def specOneLevelProps (s : Schema) : List String :=
  s.properties.map Prod.fst ++
  (match s.items with
   | some i => i.properties.map Prod.fst
   | none => [])

theorem foldProps_get (props : List (String × Schema)) (res : SchemaResult)
    (bp : List (String × List SchemaResult)) (prop : String) :
    (mapGet (props.foldl (fun bp pe =>
        mapSet bp pe.1 ((mapGet bp pe.1).getD [] ++ [res])) bp) prop).isSome = true ↔
      (mapGet bp prop).isSome = true ∨ prop ∈ props.map Prod.fst := by
  induction props generalizing bp with
  | nil => simp
  | cons pe rest ih =>
    rw [List.foldl_cons, ih]
    by_cases h : pe.1 = prop
    · subst h
      simp [mapGet_mapSet_self]
    · have h₂ : prop ≠ pe.1 := fun hh => h hh.symm
      rw [mapGet_mapSet_other _ _ _ _ h₂]
      simp only [List.map_cons, List.mem_cons]
      constructor
      · rintro (ha | hb)
        · exact Or.inl ha
        · exact Or.inr (Or.inr hb)
      · rintro (ha | hb | hc)
        · exact Or.inl ha
        · exact absurd hb h₂
        · exact Or.inr hc

theorem itemsIter_node_none (props : List (String × Schema)) (title : Option String)
    (prop : String) :
    (∃ k sub, itemsIter k (Schema.node none props title) = some sub ∧
      prop ∈ sub.properties.map Prod.fst) ↔ prop ∈ props.map Prod.fst := by
  constructor
  · rintro ⟨k, sub, hk, hp⟩
    cases k with
    | zero =>
      rw [itemsIter] at hk
      cases hk
      simpa [Schema.properties] using hp
    | succ m => simp [itemsIter] at hk
  · intro hp
    exact ⟨0, Schema.node none props title, rfl, by simpa [Schema.properties] using hp⟩

theorem itemsIter_node_some (i : Schema) (props : List (String × Schema))
    (title : Option String) (prop : String) :
    (∃ k sub, itemsIter k (Schema.node (some i) props title) = some sub ∧
      prop ∈ sub.properties.map Prod.fst) ↔
    (prop ∈ props.map Prod.fst ∨
      ∃ k sub, itemsIter k i = some sub ∧ prop ∈ sub.properties.map Prod.fst) := by
  constructor
  · rintro ⟨k, sub, hk, hp⟩
    cases k with
    | zero =>
      rw [itemsIter] at hk
      cases hk
      exact Or.inl (by simpa [Schema.properties] using hp)
    | succ m =>
      rw [itemsIter] at hk
      exact Or.inr ⟨m, sub, hk, hp⟩
  · rintro (hp | ⟨k, sub, hk, hp⟩)
    · exact ⟨0, Schema.node (some i) props title, rfl,
        by simpa [Schema.properties] using hp⟩
    · exact ⟨k + 1, sub, by simpa [itemsIter] using hk, hp⟩

/-- Claim C1 (amended): the property indexer never descends into nested
property schemas, but it does recursively unwrap the whole array-item
chain: a property name is registered exactly when it is a direct property
name of some iterate of the item step applied to the response schema. In
the embedded model every schema is a finite tree, so the recursion
terminates with descent depth the item-chain length, not a constant one
level as the claim states. -/
theorem indexSchemaProperties_characterization :
    ∀ (s : Schema) (res : SchemaResult) (bp : List (String × List SchemaResult))
      (prop : String),
      (mapGet (indexSchemaProperties s res bp) prop).isSome = true ↔
        (mapGet bp prop).isSome = true ∨
          ∃ k sub, itemsIter k s = some sub ∧ prop ∈ sub.properties.map Prod.fst := by
  intro s
  generalize hn : itemDepth s = n
  induction n generalizing s with
  | zero =>
    intro res bp prop
    rcases s with ⟨items, props, title⟩
    cases items with
    | none =>
      rw [show indexSchemaProperties (.node none props title) res bp =
        props.foldl (fun bp pe =>
          mapSet bp pe.1 ((mapGet bp pe.1).getD [] ++ [res])) bp from rfl]
      rw [foldProps_get, itemsIter_node_none]
    | some i => simp [itemDepth] at hn
  | succ n ih =>
    intro res bp prop
    rcases s with ⟨items, props, title⟩
    cases items with
    | none => simp [itemDepth] at hn
    | some i =>
      have hi : itemDepth i = n := by
        rw [itemDepth] at hn
        omega
      rw [show indexSchemaProperties (.node (some i) props title) res bp =
        indexSchemaProperties i res (props.foldl (fun bp pe =>
          mapSet bp pe.1 ((mapGet bp pe.1).getD [] ++ [res])) bp) from rfl]
      rw [ih i hi res _ prop, foldProps_get, itemsIter_node_some]
      tauto

/-- Counterexample to C1 as stated: in deepSpec the response schema keeps
its only property two item-levels deep; one-level descent reaches no
property name at all, yet the built Schema Index registers deepProp. -/
theorem indexSchemaProperties_depth_counterexample :
    mapKeys (buildSchemaIndex deepSpec).byProperty = ["deepProp"] ∧
    specOneLevelProps deepSchema = [] := by
  constructor
  · rfl
  · rfl

/-! ## Theorems: schema query deduplication (claim C3) -/

theorem dedup_fold_mem (rs : List SchemaResult) :
    ∀ (acc : List (String × SchemaResult)) (e : String × SchemaResult),
      e ∈ rs.foldl (fun acc r =>
        if (mapGet acc (schemaKey r)).isSome then acc
        else mapSet acc (schemaKey r) r) acc →
      e ∈ acc ∨ e.2 ∈ rs := by
  induction rs with
  | nil => intro acc e he; exact Or.inl he
  | cons r rest ih =>
    intro acc e he
    rw [List.foldl_cons] at he
    rcases ih _ e he with h₁ | h₁
    · by_cases hc : (mapGet acc (schemaKey r)).isSome = true
      · rw [if_pos hc] at h₁
        exact Or.inl h₁
      · rw [if_neg hc] at h₁
        rcases mem_mapSet _ _ _ _ h₁ with h₂ | h₂
        · exact Or.inl h₂
        · right
          rw [h₂]
          exact List.mem_cons_self r rest
    · exact Or.inr (List.mem_cons_of_mem r h₁)

theorem dedup_fold_get (rs : List SchemaResult) :
    ∀ (acc : List (String × SchemaResult)) (k : String),
      (mapGet (rs.foldl (fun acc r =>
        if (mapGet acc (schemaKey r)).isSome then acc
        else mapSet acc (schemaKey r) r) acc) k).isSome = true ↔
      ((mapGet acc k).isSome = true ∨ ∃ r ∈ rs, schemaKey r = k) := by
  induction rs with
  | nil => simp
  | cons r rest ih =>
    intro acc k
    rw [List.foldl_cons, ih]
    have hstep : (mapGet (if (mapGet acc (schemaKey r)).isSome then acc
        else mapSet acc (schemaKey r) r) k).isSome = true ↔
        ((mapGet acc k).isSome = true ∨ schemaKey r = k) := by
      by_cases hc : (mapGet acc (schemaKey r)).isSome = true
      · rw [if_pos hc]
        constructor
        · exact Or.inl
        · rintro (h | h)
          · exact h
          · rw [← h]; exact hc
      · rw [if_neg hc]
        by_cases hk : schemaKey r = k
        · rw [← hk, mapGet_mapSet_self]
          simp
        · rw [mapGet_mapSet_other _ _ _ _ (fun hh => hk hh.symm)]
          simp [hk]
    rw [hstep]
    simp only [List.mem_cons]
    constructor
    · rintro ((h | h) | h)
      · exact Or.inl h
      · exact Or.inr ⟨r, Or.inl rfl, h⟩
      · obtain ⟨q, hq, hk⟩ := h
        exact Or.inr ⟨q, Or.inr hq, hk⟩
    · rintro (h | ⟨q, (hq | hq), hk⟩)
      · exact Or.inl (Or.inl h)
      · subst hq
        exact Or.inl (Or.inr hk)
      · exact Or.inr ⟨q, hq, hk⟩

theorem dedup_fold_keyed (rs : List SchemaResult) :
    ∀ (acc : List (String × SchemaResult)),
      (∀ e ∈ acc, e.1 = schemaKey e.2) →
      ∀ e ∈ rs.foldl (fun acc r =>
        if (mapGet acc (schemaKey r)).isSome then acc
        else mapSet acc (schemaKey r) r) acc, e.1 = schemaKey e.2 := by
  induction rs with
  | nil => intro acc hacc e he; exact hacc e he
  | cons r rest ih =>
    intro acc hacc e he
    rw [List.foldl_cons] at he
    refine ih _ ?_ e he
    intro e₁ he₁
    by_cases hc : (mapGet acc (schemaKey r)).isSome = true
    · rw [if_pos hc] at he₁
      exact hacc e₁ he₁
    · rw [if_neg hc] at he₁
      rcases mem_mapSet _ _ _ _ he₁ with h₂ | h₂
      · exact hacc e₁ h₂
      · rw [h₂]

theorem dedup_fold_nodup (rs : List SchemaResult) :
    ∀ (acc : List (String × SchemaResult)),
      (mapKeys acc).Nodup →
      (mapKeys (rs.foldl (fun acc r =>
        if (mapGet acc (schemaKey r)).isSome then acc
        else mapSet acc (schemaKey r) r) acc)).Nodup := by
  induction rs with
  | nil => intro acc h; exact h
  | cons r rest ih =>
    intro acc h
    rw [List.foldl_cons]
    refine ih _ ?_
    by_cases hc : (mapGet acc (schemaKey r)).isSome = true
    · rw [if_pos hc]; exact h
    · rw [if_neg hc]; exact nodup_mapKeys_mapSet _ _ _ h

theorem dedupByKey_pairwise (rs : List SchemaResult) :
    (dedupByKey rs).Pairwise (fun a b => schemaKey a ≠ schemaKey b) := by
  unfold dedupByKey
  rw [List.pairwise_map]
  have hkeyed := dedup_fold_keyed rs [] (by simp)
  have hnodup := dedup_fold_nodup rs [] (by simp [mapKeys])
  have hpair : (rs.foldl (fun acc r =>
      if (mapGet acc (schemaKey r)).isSome then acc
      else mapSet acc (schemaKey r) r) []).Pairwise (fun a b => a.1 ≠ b.1) := by
    have h₁ := hnodup
    unfold mapKeys at h₁
    exact List.pairwise_map.mp h₁
  refine hpair.imp_of_mem ?_
  intro a b ha hb hne
  rw [hkeyed a ha, hkeyed b hb] at hne
  exact hne

theorem colon_split (xs : List Char) :
    ∀ (us ys vs : List Char), (':') ∉ xs → (':') ∉ us →
      xs ++ (':') :: ys = us ++ (':') :: vs → xs = us := by
  induction xs with
  | nil =>
    intro us ys vs _ hu h
    cases us with
    | nil => rfl
    | cons d ds =>
      rw [List.nil_append, List.cons_append, List.cons.injEq] at h
      exact absurd (List.mem_cons_self d ds) (by rw [← h.1] at hu; simp at hu)
  | cons c cs ih =>
    intro us ys vs hx hu h
    cases us with
    | nil =>
      rw [List.nil_append, List.cons_append, List.cons.injEq] at h
      exact absurd (List.mem_cons_self c cs) (by rw [h.1] at hx; simp at hx)
    | cons d ds =>
      rw [List.cons_append, List.cons_append, List.cons.injEq] at h
      rw [h.1, ih ds ys vs (fun hm => hx (List.mem_cons_of_mem c hm))
        (fun hm => hu (List.mem_cons_of_mem d hm)) h.2]

theorem schemaKey_data (r : SchemaResult) :
    (schemaKey r).data = (renderOpt r.path).data ++
      (':') :: ((renderOpt r.method).data ++ (':') :: (renderOpt r.schemaName).data) := by
  unfold schemaKey
  simp [String.data_append]

theorem schemaKey_ne_of_path_ne (r₁ r₂ : SchemaResult) (p₁ p₂ : String)
    (h₁ : r₁.path = some p₁) (h₂ : r₂.path = some p₂)
    (hc₁ : (':') ∉ p₁.data) (hc₂ : (':') ∉ p₂.data) (hne : p₁ ≠ p₂) :
    schemaKey r₁ ≠ schemaKey r₂ := by
  intro h
  apply hne
  have hd : (schemaKey r₁).data = (schemaKey r₂).data := by rw [h]
  rw [schemaKey_data, schemaKey_data, h₁, h₂] at hd
  have := colon_split p₁.data p₂.data _ _ hc₁ hc₂ hd
  exact String.ext this

/-- Claim C3 (amended): the schema query deduplicates by the rendered
string key path colon method colon schemaName, an absent schemaName
printing as the literal text undefined; every kept result comes from the
collected results, no two kept results share a key, every collected key is
represented, and two occurrences whose paths are distinct colon-free
strings always have distinct keys, hence both survive. The key is however
the rendered string, not the (path, method, schemaName) tuple: tuples that
render alike, such as an absent schemaName against one literally named
undefined, collide and only the first survives. -/
theorem searchSchemas_dedup_by_rendered_key :
    (∀ (epIdx : EndpointIndex) (scIdx : SchemaIndex) (params : SchemaSearchParams),
      (searchSchemas epIdx scIdx params).Pairwise
        (fun a b => schemaKey a ≠ schemaKey b)) ∧
    (∀ (rs : List SchemaResult), ∀ r ∈ dedupByKey rs, r ∈ rs) ∧
    (∀ (rs : List SchemaResult), ∀ r ∈ rs,
      ∃ q ∈ dedupByKey rs, schemaKey q = schemaKey r) ∧
    (∀ (r₁ r₂ : SchemaResult) (p₁ p₂ : String), r₁.path = some p₁ →
      r₂.path = some p₂ → (':') ∉ p₁.data → (':') ∉ p₂.data → p₁ ≠ p₂ →
      schemaKey r₁ ≠ schemaKey r₂) := by
  refine ⟨?_, ?_, ?_, schemaKey_ne_of_path_ne⟩
  · intro epIdx scIdx params
    exact dedupByKey_pairwise _
  · intro rs r hr
    unfold dedupByKey at hr
    rw [List.mem_map] at hr
    obtain ⟨e, he, hre⟩ := hr
    rcases dedup_fold_mem rs [] e he with h | h
    · cases h
    · rw [← hre]; exact h
  · intro rs r hr
    have hget : (mapGet (rs.foldl (fun acc r =>
        if (mapGet acc (schemaKey r)).isSome then acc
        else mapSet acc (schemaKey r) r) []) (schemaKey r)).isSome = true := by
      rw [dedup_fold_get]
      exact Or.inr ⟨r, hr, rfl⟩
    obtain ⟨v, hv⟩ := Option.isSome_iff_exists.mp hget
    have hmem := mapGet_mem _ _ _ hv
    have hkey := dedup_fold_keyed rs [] (by simp) _ hmem
    refine ⟨v, ?_, ?_⟩
    · unfold dedupByKey
      rw [List.mem_map]
      exact ⟨(schemaKey r, v), hmem, rfl⟩
    · exact hkey.symm

/-- Witness for C3 (amended): key distinctness discharged on two concrete
occurrences with distinct colon-free paths and no schema name. -/
theorem searchSchemas_dedup_by_rendered_key_witness :
    schemaKey ⟨none, some "/a/", some "GET", leafSchema⟩ ≠
    schemaKey ⟨none, some "/b/", some "GET", leafSchema⟩ :=
  searchSchemas_dedup_by_rendered_key.2.2.2 _ _ "/a/" "/b/" rfl rfl
    (by decide) (by decide) (by decide)

/-- Counterexample to C3 as stated: in undefSpec the byProperty bucket of
the property pp holds two occurrences whose (path, method, schemaName)
tuples differ (one schemaName is the literal text undefined, the other is
absent), yet the schema query keeps only the first, because both render to
the same string key. -/
theorem searchSchemas_dedup_counterexample :
    ((buildSchemaIndex undefSpec).byProperty.map (fun e =>
        (e.1, e.2.map (fun r => (r.path, r.method, r.schemaName)))) =
      [("pp", [(some "/c/", some "GET", some "undefined"),
               (some "/c/", some "GET", (none : Option String))])]) ∧
    ((searchSchemas (buildEndpointIndex undefSpec) (buildSchemaIndex undefSpec)
        { property := some "pp" }).map (fun r => (r.path, r.method, r.schemaName)) =
      [(some "/c/", some "GET", some "undefined")]) :=
  ⟨rfl, rfl⟩

/-! ## Theorems: fulltext index invariants and score safety (claim C2) -/

theorem mem_mapKeys_of_mapGet {α : Type} (m : List (String × α)) (k : String)
    (h : (mapGet m k).isSome = true) : k ∈ mapKeys m := by
  obtain ⟨v, hv⟩ := Option.isSome_iff_exists.mp h
  exact List.mem_map.mpr ⟨(k, v), mapGet_mem _ _ _ hv, rfl⟩

theorem foldl_inv {α β : Type} (P : β → Prop) (f : β → α → β) :
    ∀ (l : List α) (b : β), P b → (∀ b a, P b → P (f b a)) → P (l.foldl f b) := by
  intro l
  induction l with
  | nil => intro b hb _; exact hb
  | cons x xs ih => intro b hb hf; exact ih (f b x) (hf b x hb) hf

theorem indexTokens_inv (K : List String) (docId : String) (hdoc : docId ∈ K)
    (tokens : List String) :
    ∀ ws, (∀ t ds, (t, ds) ∈ ws → ds ≠ [] ∧ ds.Nodup ∧ ∀ d ∈ ds, d ∈ K) →
    ∀ t ds, (t, ds) ∈ indexTokens docId ws tokens →
      ds ≠ [] ∧ ds.Nodup ∧ ∀ d ∈ ds, d ∈ K := by
  unfold indexTokens
  induction tokens with
  | nil => intro ws hws t ds h; exact hws t ds h
  | cons token rest ih =>
    intro ws hws t ds hmem
    rw [List.foldl_cons] at hmem
    refine ih _ ?_ t ds hmem
    intro t₁ ds₁ h₁
    rcases mem_mapSet _ _ _ _ h₁ with h₂ | h₂
    · exact hws _ _ h₂
    · have hds : ds₁ = setAdd ((mapGet ws token).getD []) docId := congrArg Prod.snd h₂
      subst hds
      cases hg : mapGet ws token with
      | none =>
        refine ⟨by simp [setAdd], by simp [setAdd], ?_⟩
        intro d hd
        rcases mem_setAdd _ _ _ hd with h₃ | h₃
        · simp at h₃
        · rw [h₃]; exact hdoc
      | some old =>
        obtain ⟨hne, hnd, hsub⟩ := hws token old (mapGet_mem _ _ _ hg)
        refine ⟨setAdd_ne_nil _ _, setAdd_nodup _ _ hnd, ?_⟩
        intro d hd
        rcases mem_setAdd _ _ _ hd with h₃ | h₃
        · exact hsub d h₃
        · rw [h₃]; exact hdoc

theorem addFulltextDoc_inv (idx : FulltextIndex) (path : String) (method : HttpMethod)
    (operation : Operation)
    (hnd : (mapKeys idx.documents).Nodup)
    (hws : ∀ t ds, (t, ds) ∈ idx.words →
      ds ≠ [] ∧ ds.Nodup ∧ ∀ d ∈ ds, d ∈ mapKeys idx.documents) :
    (mapKeys (addFulltextDoc idx path method operation).documents).Nodup ∧
    ∀ t ds, (t, ds) ∈ (addFulltextDoc idx path method operation).words →
      ds ≠ [] ∧ ds.Nodup ∧
        ∀ d ∈ ds, d ∈ mapKeys (addFulltextDoc idx path method operation).documents := by
  refine ⟨nodup_mapKeys_mapSet _ _ _ hnd, ?_⟩
  intro t ds hmem
  have hdoc : (method.upper ++ ":" ++ path) ∈
      mapKeys (addFulltextDoc idx path method operation).documents := by
    apply mem_mapKeys_of_mapGet
    show (mapGet (mapSet idx.documents (method.upper ++ ":" ++ path) _)
      (method.upper ++ ":" ++ path)).isSome = true
    rw [mapGet_mapSet_self]
    rfl
  refine indexTokens_inv _ _ hdoc _ idx.words ?_ t ds hmem
  intro t₁ ds₁ h₁
  obtain ⟨hne, hnd₁, hsub⟩ := hws t₁ ds₁ h₁
  exact ⟨hne, hnd₁, fun d hd => mapKeys_subset_mapSet _ _ _ (hsub d hd)⟩

theorem buildFulltextIndex_inv (spec : SwaggerSpec) :
    (mapKeys (buildFulltextIndex spec).documents).Nodup ∧
    ∀ t ds, (t, ds) ∈ (buildFulltextIndex spec).words →
      ds ≠ [] ∧ ds.Nodup ∧ ∀ d ∈ ds, d ∈ mapKeys (buildFulltextIndex spec).documents := by
  unfold buildFulltextIndex
  refine foldl_inv (fun (idx : FulltextIndex) => (mapKeys idx.documents).Nodup ∧
    ∀ t ds, (t, ds) ∈ idx.words →
      ds ≠ [] ∧ ds.Nodup ∧ ∀ d ∈ ds, d ∈ mapKeys idx.documents) _ spec.paths
    ⟨[], []⟩ ⟨by simp [mapKeys], by simp⟩ ?_
  intro idx pe h
  refine foldl_inv (fun (idx : FulltextIndex) => (mapKeys idx.documents).Nodup ∧
    ∀ t ds, (t, ds) ∈ idx.words →
      ds ≠ [] ∧ ds.Nodup ∧ ∀ d ∈ ds, d ∈ mapKeys idx.documents) _ HttpMethod.all idx h ?_
  intro idx method h
  cases hop : pe.2.op method with
  | none => simpa [hop] using h
  | some operation =>
    simp only [hop]
    exact addFulltextDoc_inv idx pe.1 method operation h.1 h.2

theorem buildFulltextIndex_words_bounds (spec : SwaggerSpec) (t : String)
    (ds : List String) (h : (t, ds) ∈ (buildFulltextIndex spec).words) :
    ds ≠ [] ∧ ds.length ≤ (buildFulltextIndex spec).documents.length := by
  obtain ⟨hnd, hws⟩ := buildFulltextIndex_inv spec
  obtain ⟨hne, hnd₁, hsub⟩ := hws t ds h
  refine ⟨hne, ?_⟩
  have hle := (List.subperm_of_subset hnd₁ hsub).length_le
  simpa [mapKeys] using hle

theorem insertSorted_perm {α : Type} (le : α → α → Bool) (x : α) (l : List α) :
    (insertSorted le x l).Perm (x :: l) := by
  induction l with
  | nil => exact List.Perm.refl _
  | cons y ys ih =>
    unfold insertSorted
    split
    · exact (ih.cons y).trans (List.Perm.swap x y ys)
    · exact List.Perm.refl _

theorem stableSort_perm {α : Type} (le : α → α → Bool) (l : List α) :
    (stableSort le l).Perm l := by
  have key : ∀ (l acc : List α),
      (l.foldl (fun acc x => insertSorted le x acc) acc).Perm (acc ++ l) := by
    intro l
    induction l with
    | nil => intro acc; simp
    | cons x xs ih =>
      intro acc
      rw [List.foldl_cons]
      refine (ih (insertSorted le x acc)).trans ?_
      refine (List.Perm.append_right xs (insertSorted_perm le x acc)).trans ?_
      exact List.perm_middle.symm
  simpa using key l []

/-- Claim C2: in an index built by the fulltext builder, every word entry
holds a non-empty document set no larger than the document store, so every
looked-up document frequency is at least one and at most the document
count; consequently, for any logarithm that is non-negative on arguments
of at least one (as the real natural logarithm is), every score returned
by the fulltext query is a non-negative, well-defined number — the
degenerate logarithm case is unreachable. -/
theorem fulltextSearch_scores_finite :
    (∀ (spec : SwaggerSpec) (t : String) (ds : List String),
      (t, ds) ∈ (buildFulltextIndex spec).words →
      ds ≠ [] ∧ ds.length ≤ (buildFulltextIndex spec).documents.length) ∧
    (∀ (spec : SwaggerSpec) (log : ℚ → ℚ) (query : String) (limit : Option Nat),
      (∀ x : ℚ, 1 ≤ x → 0 ≤ log x) →
      ∀ r ∈ fulltextSearch log (buildFulltextIndex spec) query limit, 0 ≤ r.score) := by
  refine ⟨fun spec t ds h => buildFulltextIndex_words_bounds spec t ds h, ?_⟩
  intro spec log query limit hlog r hr
  unfold fulltextSearch at hr
  dsimp only at hr
  split at hr
  · simp at hr
  · have hr₂ : r ∈ ((tokenize query).foldl
        (scoreToken log (buildFulltextIndex spec) (tokenize query).length) []).map
        (fun e =>
          let doc := (mapGet (buildFulltextIndex spec).documents e.1).getD defaultDoc
          FulltextSearchResult.mk doc.path doc.method doc.summary doc.description
            e.2.1 e.2.2) := by
      have h₁ := List.take_subset _ _ hr
      exact ((stableSort_perm _ _).mem_iff).mp h₁
    obtain ⟨e, he, hre⟩ := List.mem_map.mp hr₂
    have hkey : ∀ e₁ ∈ (tokenize query).foldl
        (scoreToken log (buildFulltextIndex spec) (tokenize query).length) [],
        (0 : ℚ) ≤ e₁.2.1 := by
      refine foldl_inv (fun (scores : List (String × (ℚ × List String))) =>
        ∀ e₁ ∈ scores, (0 : ℚ) ≤ e₁.2.1) _ _ [] (by simp) ?_
      intro scores token hP
      unfold scoreToken
      cases hg : mapGet (buildFulltextIndex spec).words token with
      | none => exact hP
      | some docIds =>
        obtain ⟨hne, hlen⟩ :=
          buildFulltextIndex_words_bounds spec token docIds (mapGet_mem _ _ _ hg)
        have hidf : (0 : ℚ) ≤ log (((buildFulltextIndex spec).documents.length : ℚ) /
            (docIds.length : ℚ)) := by
          apply hlog
          rw [one_le_div]
          · exact_mod_cast hlen
          · exact_mod_cast List.length_pos.mpr hne
        refine foldl_inv (fun (scores : List (String × (ℚ × List String))) =>
          ∀ e₁ ∈ scores, (0 : ℚ) ≤ e₁.2.1) _ docIds scores hP ?_
        intro scores docId hP₁
        unfold scoreDoc
        intro e₁ he₁
        have hP₂ : ∀ e₂ ∈ (if (mapGet scores docId).isSome then scores
            else mapSet scores docId (0, [])), (0 : ℚ) ≤ e₂.2.1 := by
          split
          · exact hP₁
          · intro e₂ he₂
            rcases mem_mapSet _ _ _ _ he₂ with h₃ | h₃
            · exact hP₁ e₂ h₃
            · rw [h₃]
        have hsd : (0 : ℚ) ≤ ((mapGet (if (mapGet scores docId).isSome then scores
            else mapSet scores docId (0, [])) docId).getD (0, [])).1 := by
          cases hgd : mapGet (if (mapGet scores docId).isSome then scores
            else mapSet scores docId (0, [])) docId with
          | none => exact le_refl 0
          | some v => exact hP₂ (docId, v) (mapGet_mem _ _ _ hgd)
        rcases mem_mapSet _ _ _ _ he₁ with h₃ | h₃
        · exact hP₂ e₁ h₃
        · rw [h₃]
          refine add_nonneg hsd (mul_nonneg ?_ hidf)
          positivity
    rw [← hre]
    exact hkey e he

/-- Witness for C2: the logarithm hypothesis discharged with the identity
function on a concrete built index and query. -/
theorem fulltextSearch_scores_finite_witness :
    ∀ r ∈ fulltextSearch id (buildFulltextIndex demoSpec) "files" none, 0 ≤ r.score :=
  fulltextSearch_scores_finite.2 demoSpec id "files" none (fun _ hx => le_trans zero_le_one hx)

/-! ## Theorems: loader initialization and atomicity (claim C9) -/

/-- Claim C9: before a successful load every accessor fails with its
not-initialized error message rather than yielding an absent value; a
failed parse leaves the state unchanged; a successful parse populates the
specification and all three indexes at once; and in every reachable state
either all four accessors succeed or all four fail — there is no
observable half-built state. -/
theorem loader_accessors_atomic :
    (getSpec newLoader = .error "Swagger spec not loaded. Call load() first." ∧
     getEndpointIndex newLoader = .error "Indexes not built. Call load() first." ∧
     getSchemaIndex newLoader = .error "Indexes not built. Call load() first." ∧
     getFulltextIndex newLoader = .error "Indexes not built. Call load() first.") ∧
    (∀ st : LoaderState, loadStep st none = st) ∧
    (∀ (st : LoaderState) (sp : SwaggerSpec),
      getSpec (loadStep st (some sp)) = .ok sp ∧
      getEndpointIndex (loadStep st (some sp)) = .ok (buildEndpointIndex sp) ∧
      getSchemaIndex (loadStep st (some sp)) = .ok (buildSchemaIndex sp) ∧
      getFulltextIndex (loadStep st (some sp)) = .ok (buildFulltextIndex sp)) ∧
    (∀ st : LoaderState, ReachableLoader st →
      ((∃ sp, getSpec st = .ok sp) ∧ (∃ i, getEndpointIndex st = .ok i) ∧
       (∃ i, getSchemaIndex st = .ok i) ∧ (∃ i, getFulltextIndex st = .ok i)) ∨
      (getSpec st = .error "Swagger spec not loaded. Call load() first." ∧
       getEndpointIndex st = .error "Indexes not built. Call load() first." ∧
       getSchemaIndex st = .error "Indexes not built. Call load() first." ∧
       getFulltextIndex st = .error "Indexes not built. Call load() first.")) := by
  refine ⟨⟨rfl, rfl, rfl, rfl⟩, fun st => rfl, fun st sp => ⟨rfl, rfl, rfl, rfl⟩, ?_⟩
  intro st hst
  induction hst with
  | new => exact Or.inr ⟨rfl, rfl, rfl, rfl⟩
  | step st parsed _ ih =>
    cases parsed with
    | none => simpa [loadStep] using ih
    | some sp =>
      exact Or.inl ⟨⟨sp, rfl⟩, ⟨_, rfl⟩, ⟨_, rfl⟩, ⟨_, rfl⟩⟩

/-- Witness for C9: the reachability hypothesis discharged on the state
after one successful load of the demo specification. -/
theorem loader_accessors_atomic_witness :
    ((∃ sp, getSpec (loadStep newLoader (some demoSpec)) = .ok sp) ∧
     (∃ i, getEndpointIndex (loadStep newLoader (some demoSpec)) = .ok i) ∧
     (∃ i, getSchemaIndex (loadStep newLoader (some demoSpec)) = .ok i) ∧
     (∃ i, getFulltextIndex (loadStep newLoader (some demoSpec)) = .ok i)) ∨
    (getSpec (loadStep newLoader (some demoSpec)) =
      .error "Swagger spec not loaded. Call load() first." ∧
     getEndpointIndex (loadStep newLoader (some demoSpec)) =
      .error "Indexes not built. Call load() first." ∧
     getSchemaIndex (loadStep newLoader (some demoSpec)) =
      .error "Indexes not built. Call load() first." ∧
     getFulltextIndex (loadStep newLoader (some demoSpec)) =
      .error "Indexes not built. Call load() first.") :=
  loader_accessors_atomic.2.2.2 _
    (ReachableLoader.step newLoader (some demoSpec) ReachableLoader.new)

/-! ## Theorems: ordering of the endpoint listing (claim C7) -/

theorem charsLt_trans : ∀ a b c : List Char,
    charsLt a b = true → charsLt b c = true → charsLt a c = true := by
  intro a
  induction a with
  | nil =>
    intro b c hab hbc
    cases b with
    | nil => simp [charsLt] at hab
    | cons d ds =>
      cases c with
      | nil => simp [charsLt] at hbc
      | cons e es => simp [charsLt]
  | cons x xs ih =>
    intro b c hab hbc
    cases b with
    | nil => simp [charsLt] at hab
    | cons d ds =>
      cases c with
      | nil => simp [charsLt] at hbc
      | cons e es =>
        simp only [charsLt, Bool.or_eq_true, Bool.and_eq_true, decide_eq_true_eq,
          beq_iff_eq] at hab hbc ⊢
        rcases hab with h₁ | ⟨h₁, h₂⟩
        · rcases hbc with h₃ | ⟨h₃, h₄⟩
          · exact Or.inl (lt_trans h₁ h₃)
          · exact Or.inl (h₃ ▸ h₁)
        · rcases hbc with h₃ | ⟨h₃, h₄⟩
          · exact Or.inl (h₁ ▸ h₃)
          · exact Or.inr ⟨h₁.trans h₃, ih ds es h₂ h₄⟩

theorem charsLe_trans : ∀ a b c : List Char,
    charsLe a b = true → charsLe b c = true → charsLe a c = true := by
  intro a
  induction a with
  | nil => intro b c _ _; simp [charsLe]
  | cons x xs ih =>
    intro b c hab hbc
    cases b with
    | nil => simp [charsLe] at hab
    | cons d ds =>
      cases c with
      | nil => simp [charsLe] at hbc
      | cons e es =>
        simp only [charsLe, Bool.or_eq_true, Bool.and_eq_true, decide_eq_true_eq,
          beq_iff_eq] at hab hbc ⊢
        rcases hab with h₁ | ⟨h₁, h₂⟩
        · rcases hbc with h₃ | ⟨h₃, h₄⟩
          · exact Or.inl (lt_trans h₁ h₃)
          · exact Or.inl (h₃ ▸ h₁)
        · rcases hbc with h₃ | ⟨h₃, h₄⟩
          · exact Or.inl (h₁ ▸ h₃)
          · exact Or.inr ⟨h₁.trans h₃, ih ds es h₂ h₄⟩

theorem charsLe_total : ∀ a b : List Char, (charsLe a b || charsLe b a) = true := by
  intro a
  induction a with
  | nil => intro b; simp [charsLe]
  | cons x xs ih =>
    intro b
    cases b with
    | nil => simp [charsLe]
    | cons d ds =>
      simp only [charsLe, Bool.or_eq_true, Bool.and_eq_true, decide_eq_true_eq,
        beq_iff_eq]
      rcases lt_trichotomy x d with h | h | h
      · exact Or.inl (Or.inl h)
      · subst h
        rcases Bool.or_eq_true _ _ |>.mp (ih ds) with h₁ | h₁
        · exact Or.inl (Or.inr ⟨rfl, h₁⟩)
        · exact Or.inr (Or.inr ⟨rfl, h₁⟩)
      · exact Or.inr (Or.inl h)

theorem charsLt_tricho : ∀ a b : List Char,
    charsLt a b = true ∨ a = b ∨ charsLt b a = true := by
  intro a
  induction a with
  | nil =>
    intro b
    cases b with
    | nil => exact Or.inr (Or.inl rfl)
    | cons d ds => exact Or.inl (by simp [charsLt])
  | cons x xs ih =>
    intro b
    cases b with
    | nil => exact Or.inr (Or.inr (by simp [charsLt]))
    | cons d ds =>
      rcases lt_trichotomy x d with h | h | h
      · exact Or.inl (by simp [charsLt, h])
      · subst h
        rcases ih ds with h₁ | h₁ | h₁
        · exact Or.inl (by simp [charsLt, h₁])
        · exact Or.inr (Or.inl (by rw [h₁]))
        · exact Or.inr (Or.inr (by simp [charsLt, h₁]))
      · exact Or.inr (Or.inr (by simp [charsLt, h]))

theorem listItemLe_trans : ∀ a b c : EndpointListItem,
    listItemLe a b = true → listItemLe b c = true → listItemLe a c = true := by
  intro a b c hab hbc
  simp only [listItemLe, strLt, strLe, Bool.or_eq_true, Bool.and_eq_true,
    beq_iff_eq] at hab hbc ⊢
  rcases hab with h₁ | ⟨h₁, h₂⟩ <;> rcases hbc with h₃ | ⟨h₃, h₄⟩
  · exact Or.inl (charsLt_trans _ _ _ h₁ h₃)
  · exact Or.inl (by rw [← h₃]; exact h₁)
  · exact Or.inl (by rw [h₁]; exact h₃)
  · exact Or.inr ⟨h₁.trans h₃, charsLe_trans _ _ _ h₂ h₄⟩

theorem listItemLe_total : ∀ a b : EndpointListItem,
    (listItemLe a b || listItemLe b a) = true := by
  intro a b
  simp only [listItemLe, strLt, strLe, Bool.or_eq_true, Bool.and_eq_true,
    beq_iff_eq]
  rcases charsLt_tricho a.path.data b.path.data with h | h | h
  · exact Or.inl (Or.inl h)
  · have hp : a.path = b.path := String.ext h
    rcases Bool.or_eq_true _ _ |>.mp (charsLe_total a.method.data b.method.data) with h₁ | h₁
    · exact Or.inl (Or.inr ⟨hp, h₁⟩)
    · exact Or.inr (Or.inr ⟨hp.symm, h₁⟩)
  · exact Or.inr (Or.inl h)

theorem insertSorted_sorted {α : Type} (le : α → α → Bool)
    (htrans : ∀ a b c, le a b = true → le b c = true → le a c = true)
    (htot : ∀ a b, (le a b || le b a) = true)
    (x : α) (l : List α) (hl : l.Pairwise (fun a b => le a b = true)) :
    (insertSorted le x l).Pairwise (fun a b => le a b = true) := by
  induction l with
  | nil => simp [insertSorted]
  | cons y ys ih =>
    rw [List.pairwise_cons] at hl
    obtain ⟨hy, hys⟩ := hl
    unfold insertSorted
    by_cases hyx : le y x = true
    · rw [if_pos hyx, List.pairwise_cons]
      refine ⟨?_, ih hys⟩
      intro z hz
      rcases List.mem_cons.mp (((insertSorted_perm le x ys).mem_iff).mp hz) with hz₁ | hz₁
      · rw [hz₁]; exact hyx
      · exact hy z hz₁
    · rw [if_neg hyx, List.pairwise_cons]
      have hxy : le x y = true := by
        rcases Bool.or_eq_true _ _ |>.mp (htot x y) with h | h
        · exact h
        · exact absurd h hyx
      refine ⟨?_, List.pairwise_cons.mpr ⟨hy, hys⟩⟩
      intro z hz
      rcases List.mem_cons.mp hz with hz₁ | hz₁
      · rw [hz₁]; exact hxy
      · exact htrans x y z hxy (hy z hz₁)

theorem stableSort_sorted {α : Type} (le : α → α → Bool)
    (htrans : ∀ a b c, le a b = true → le b c = true → le a c = true)
    (htot : ∀ a b, (le a b || le b a) = true) (l : List α) :
    (stableSort le l).Pairwise (fun a b => le a b = true) := by
  unfold stableSort
  refine foldl_inv (fun (acc : List α) => acc.Pairwise (fun a b => le a b = true))
    _ l [] (by simp) ?_
  intro acc x hacc
  exact insertSorted_sorted le htrans htot x acc hacc

/-- Claim C7: the endpoint listing is the full (path, method) enumeration
of the endpoint index, carrying summary, operationId and tags, sorted by
path and then by method, then paginated by dropping offset entries
(default 0) and taking at most limit entries (default 50); in particular
on a specification listing /b/ before /a/ the listing returns /a/ first. -/
theorem listEndpoints_sorted_paginated :
    (∀ (index : EndpointIndex) (limit offset : Option Nat),
      ∃ sorted : List EndpointListItem,
        sorted.Perm (index.paths.foldl (fun acc pe =>
          pe.2.foldl (fun acc me =>
            acc ++ [⟨pe.1, strUpper me.1, me.2.summary, me.2.operationId, me.2.tags⟩]) acc) []) ∧
        sorted.Pairwise (fun a b => listItemLe a b = true) ∧
        listEndpoints index limit offset =
          (sorted.drop (offset.getD 0)).take (limit.getD 50)) ∧
    (listEndpoints (buildEndpointIndex abSpec) none none).map (fun e => (e.path, e.method)) =
      [("/a/", "GET"), ("/b/", "GET")] := by
  constructor
  · intro index limit offset
    refine ⟨stableSort listItemLe (index.paths.foldl (fun acc pe =>
      pe.2.foldl (fun acc me =>
        acc ++ [⟨pe.1, strUpper me.1, me.2.summary, me.2.operationId, me.2.tags⟩]) acc) []),
      stableSort_perm _ _, stableSort_sorted _ listItemLe_trans listItemLe_total _, by rfl⟩
  · rfl

/-! ## Theorems: matched fields can be empty while the score is positive
(claim C10) -/

/-- Claim C10: on storageSpec the query storage matches one document only
through a parameter name; the parameter name is part of the indexed
content, so the document scores tf times log of two, which is positive,
yet the matched-field test only inspects summary and description, so the
matched-field list of the returned result is empty. -/
theorem fulltextSearch_param_match_empty_fields :
    ∀ log : ℚ → ℚ, 0 < log 2 →
      ∃ r, fulltextSearch log (buildFulltextIndex storageSpec) "storage" none = [r] ∧
        r.matchedFields = [] ∧ 0 < r.score := by
  intro log hlog
  refine ⟨_, rfl, rfl, ?_⟩
  show (0 : ℚ) < 0 + 1 / ((1 : ℕ) : ℚ) * log (((2 : ℕ) : ℚ) / ((1 : ℕ) : ℚ))
  have h₂ : (((2 : ℕ) : ℚ) / ((1 : ℕ) : ℚ)) = 2 := by norm_num
  rw [h₂]
  have h₁ : (0 : ℚ) + 1 / ((1 : ℕ) : ℚ) * log 2 = log 2 := by
    norm_num
  rw [h₁]
  exact hlog

/-- Witness for C10: the positivity hypothesis discharged with the
identity function as the logarithm. -/
theorem fulltextSearch_param_match_empty_fields_witness :
    (0 : ℚ) < id 2 ∧
    ∃ r, fulltextSearch id (buildFulltextIndex storageSpec) "storage" none = [r] ∧
      r.matchedFields = [] ∧ 0 < r.score :=
  ⟨by norm_num, fulltextSearch_param_match_empty_fields id (by norm_num)⟩

/-! ## Theorems: case-insensitivity of the resolvers (claim C8) -/

theorem charEqModCase_lower_upper (c₁ c₂ : Char) (h : charEqModCase c₁ c₂) :
    lowerChar c₁ = lowerChar c₂ ∧ upperChar c₁ = upperChar c₂ := by
  have htab : ∀ p ∈ letterPairs,
      lowerChar p.1 = lowerChar p.2 ∧ upperChar p.1 = upperChar p.2 := by decide
  rcases h with rfl | h | h
  · exact ⟨rfl, rfl⟩
  · exact htab (c₁, c₂) h
  · exact ⟨(htab (c₂, c₁) h).1.symm, (htab (c₂, c₁) h).2.symm⟩

theorem forall₂_map_lower (l₁ l₂ : List Char) (h : List.Forall₂ charEqModCase l₁ l₂) :
    l₁.map lowerChar = l₂.map lowerChar := by
  induction h with
  | nil => rfl
  | cons hc _ ih =>
    rw [List.map_cons, List.map_cons, (charEqModCase_lower_upper _ _ hc).1, ih]

theorem forall₂_map_upper (l₁ l₂ : List Char) (h : List.Forall₂ charEqModCase l₁ l₂) :
    l₁.map upperChar = l₂.map upperChar := by
  induction h with
  | nil => rfl
  | cons hc _ ih =>
    rw [List.map_cons, List.map_cons, (charEqModCase_lower_upper _ _ hc).2, ih]

theorem strEqModCase_map_lower (s₁ s₂ : String) (h : strEqModCase s₁ s₂) :
    s₁.data.map lowerChar = s₂.data.map lowerChar :=
  forall₂_map_lower s₁.data s₂.data h

theorem strEqModCase_map_upper (s₁ s₂ : String) (h : strEqModCase s₁ s₂) :
    s₁.data.map upperChar = s₂.data.map upperChar :=
  forall₂_map_upper s₁.data s₂.data h

theorem strLower_congr (s₁ s₂ : String) (h : strEqModCase s₁ s₂) :
    strLower s₁ = strLower s₂ :=
  congrArg String.mk (strEqModCase_map_lower s₁ s₂ h)

theorem strUpper_congr (s₁ s₂ : String) (h : strEqModCase s₁ s₂) :
    strUpper s₁ = strUpper s₂ :=
  congrArg String.mk (strEqModCase_map_upper s₁ s₂ h)

theorem strEqModCase_beq_empty (s₁ s₂ : String) (h : strEqModCase s₁ s₂) :
    (s₁ == "") = (s₂ == "") := by
  have hlen : s₁.data.length = s₂.data.length := by
    have hm := congrArg List.length (strEqModCase_map_lower s₁ s₂ h)
    simpa using hm
  by_cases h₁ : s₁.data = []
  · have h₂ : s₂.data = [] := List.eq_nil_of_length_eq_zero (by rw [← hlen, h₁]; rfl)
    have e₁ : s₁ = "" := String.ext h₁
    have e₂ : s₂ = "" := String.ext h₂
    rw [e₁, e₂]
  · have h₂ : s₂.data ≠ [] := by
      intro hc
      rw [hc] at hlen
      exact h₁ (List.eq_nil_of_length_eq_zero hlen)
    have e₁ : s₁ ≠ "" := fun hc => h₁ (by rw [hc])
    have e₂ : s₂ ≠ "" := fun hc => h₂ (by rw [hc])
    simp [e₁, e₂]

theorem optEqModCase_props (o₁ o₂ : Option String) (h : optEqModCase o₁ o₂) :
    strTruthy o₁ = strTruthy o₂ ∧
    strLower (o₁.getD "") = strLower (o₂.getD "") ∧
    strUpper (o₁.getD "") = strUpper (o₂.getD "") := by
  cases o₁ with
  | none =>
    cases o₂ with
    | none => exact ⟨rfl, rfl, rfl⟩
    | some b => exact absurd h (fun hh => hh)
  | some a =>
    cases o₂ with
    | none => exact absurd h (fun hh => hh)
    | some b =>
      refine ⟨?_, strLower_congr a b h, strUpper_congr a b h⟩
      show (!(a == "")) = (!(b == ""))
      rw [strEqModCase_beq_empty a b h]

theorem tokenize_congr (q₁ q₂ : String) (h : strEqModCase q₁ q₂) :
    tokenize q₁ = tokenize q₂ := by
  unfold tokenize
  rw [strEqModCase_map_lower q₁ q₂ h]

theorem searchEndpoints_congr (index : EndpointIndex) (p₁ p₂ : EndpointSearchParams)
    (hp : optEqModCase p₁.path p₂.path) (hm : optEqModCase p₁.method p₂.method)
    (ho : optEqModCase p₁.operationId p₂.operationId) (ht : optEqModCase p₁.tag p₂.tag)
    (hl : p₁.limit = p₂.limit) :
    searchEndpoints index p₁ = searchEndpoints index p₂ := by
  obtain ⟨hp1, hp2, _⟩ := optEqModCase_props _ _ hp
  obtain ⟨hm1, _, hm3⟩ := optEqModCase_props _ _ hm
  obtain ⟨ho1, ho2, _⟩ := optEqModCase_props _ _ ho
  obtain ⟨ht1, ht2, _⟩ := optEqModCase_props _ _ ht
  unfold searchEndpoints
  simp only [hl, hp1, hp2, hm1, hm3, ho1, ho2, ht1, ht2]

theorem searchByTag_congr (spec : SwaggerSpec) (index : EndpointIndex)
    (t₁ t₂ : String) (incl : Bool) (h : strEqModCase t₁ t₂) :
    searchByTag spec index t₁ incl = searchByTag spec index t₂ incl := by
  unfold searchByTag
  simp only [strLower_congr t₁ t₂ h]

theorem searchSchemas_congr (epIdx : EndpointIndex) (scIdx : SchemaIndex)
    (q₁ q₂ : SchemaSearchParams)
    (hn : optEqModCase q₁.schemaName q₂.schemaName)
    (hpr : optEqModCase q₁.property q₂.property)
    (hpath : q₁.path = q₂.path) (hm : optEqModCase q₁.method q₂.method) :
    searchSchemas epIdx scIdx q₁ = searchSchemas epIdx scIdx q₂ := by
  obtain ⟨hn1, hn2, _⟩ := optEqModCase_props _ _ hn
  obtain ⟨hpr1, hpr2, _⟩ := optEqModCase_props _ _ hpr
  obtain ⟨hm1, _, hm3⟩ := optEqModCase_props _ _ hm
  unfold searchSchemas
  simp only [hpath, hn1, hn2, hpr1, hpr2, hm1, hm3]

theorem fulltextSearch_congr (log : ℚ → ℚ) (index : FulltextIndex)
    (q₁ q₂ : String) (limit : Option Nat) (h : strEqModCase q₁ q₂) :
    fulltextSearch log index q₁ limit = fulltextSearch log index q₂ limit := by
  unfold fulltextSearch
  simp only [tokenize_congr q₁ q₂ h]

/-- Claim C8 (amended): the endpoint, tag and fulltext resolvers return
identical results on inputs that differ only in ASCII letter case, and so
does the schema resolver in its schemaName, property and method
parameters; the path parameter of the schema resolver endpoint mode is
however matched exactly against the path map, so it is excluded: changing
its case can change the result. -/
theorem resolvers_case_insensitive :
    (∀ (index : EndpointIndex) (p₁ p₂ : EndpointSearchParams),
      optEqModCase p₁.path p₂.path → optEqModCase p₁.method p₂.method →
      optEqModCase p₁.operationId p₂.operationId → optEqModCase p₁.tag p₂.tag →
      p₁.limit = p₂.limit → searchEndpoints index p₁ = searchEndpoints index p₂) ∧
    (∀ (spec : SwaggerSpec) (index : EndpointIndex) (t₁ t₂ : String) (incl : Bool),
      strEqModCase t₁ t₂ → searchByTag spec index t₁ incl = searchByTag spec index t₂ incl) ∧
    (∀ (epIdx : EndpointIndex) (scIdx : SchemaIndex) (q₁ q₂ : SchemaSearchParams),
      optEqModCase q₁.schemaName q₂.schemaName → optEqModCase q₁.property q₂.property →
      q₁.path = q₂.path → optEqModCase q₁.method q₂.method →
      searchSchemas epIdx scIdx q₁ = searchSchemas epIdx scIdx q₂) ∧
    (∀ (log : ℚ → ℚ) (index : FulltextIndex) (q₁ q₂ : String) (limit : Option Nat),
      strEqModCase q₁ q₂ →
      fulltextSearch log index q₁ limit = fulltextSearch log index q₂ limit) :=
  ⟨searchEndpoints_congr, searchByTag_congr, searchSchemas_congr, fulltextSearch_congr⟩

/-- Witness for C8 (amended): concrete case permutations on the demo
index, every hypothesis discharged by computation. -/
theorem resolvers_case_insensitive_witness :
    fulltextSearch id (buildFulltextIndex demoSpec) "FiLeS" none =
      fulltextSearch id (buildFulltextIndex demoSpec) "files" none ∧
    searchEndpoints (buildEndpointIndex demoSpec) ⟨some "/FILES/", none, none, none, none⟩ =
      searchEndpoints (buildEndpointIndex demoSpec) ⟨some "/files/", none, none, none, none⟩ :=
  ⟨resolvers_case_insensitive.2.2.2 id (buildFulltextIndex demoSpec) "FiLeS" "files" none
      (by decide),
   resolvers_case_insensitive.1 (buildEndpointIndex demoSpec)
      ⟨some "/FILES/", none, none, none, none⟩ ⟨some "/files/", none, none, none, none⟩
      (by decide) (by decide) (by decide) (by decide) rfl⟩

/-- Counterexample to C8 as stated: the schema resolver endpoint mode looks
the path up exactly, so two queries differing only in the letter case of
the path return different result sets on caseSpec. -/
theorem searchSchemas_path_case_counterexample :
    strEqModCase "/Files/" "/files/" ∧
    searchSchemas (buildEndpointIndex caseSpec) (buildSchemaIndex caseSpec)
      ⟨none, none, some "/Files/", some "get"⟩ ≠
    searchSchemas (buildEndpointIndex caseSpec) (buildSchemaIndex caseSpec)
      ⟨none, none, some "/files/", some "get"⟩ := by
  refine ⟨by decide, ?_⟩
  intro h
  exact absurd (congrArg List.length h) (by decide)
